import Mathlib

/-!
Verification of the semantic FAQ retrieval engine of the Zaggle AI agent
(`utils/faq_processor.py`).

The development shallowly embeds the `FAQProcessor` methods:

* Python string helpers (`strip`, `lower`, the `re.split` call used by
  `_split_questions`) are modelled over `List Char` / `String`;
* embeddings are lists of rationals; the external embedding provider, the
  wall clock and the durability of file writes live in an `Env` record;
* the mutable fields of a `FAQProcessor` instance form `FPState`;
* observable side effects (sleeps, provider requests, cache-file writes)
  are collected in an explicit trace;
* raised-and-not-caught Python exceptions are `Except.error` values.
-/

namespace ZaggleFAQ

/-! ## Python string primitives -/

/-- Whitespace characters stripped by Python's `str.strip()` (ASCII range). -/
def pyIsSpace (c : Char) : Bool :=
  c = ' ' || c = '\t' || c = '\n' || c = '\r' || c = '\x0b' || c = '\x0c'

/-- Model of Python `str.strip()` on a character list. -/
def pyStripL (l : List Char) : List Char :=
  ((l.dropWhile pyIsSpace).reverse.dropWhile pyIsSpace).reverse

/-- Model of Python `str.strip()`. -/
def pyStripS (s : String) : String :=
  String.mk (pyStripL s.toList)

/-- Model of Python `str.lower()` (ASCII letters). -/
def pyLower (s : String) : String :=
  String.mk (s.toList.map Char.toLower)

/-- Word characters for the regex `\b` boundary (ASCII fragment of `\w`). -/
def isWordChar (c : Char) : Bool :=
  c.isAlphanum || c = '_'

/-- A `\b` boundary holds before a word character when the previous character
(if any) is not a word character. -/
def boundaryBefore (prev : Option Char) : Bool :=
  match prev with
  | none => true
  | some c => !isWordChar c

/-- A `\b` boundary holds after a word character when the next character
(if any) is not a word character. -/
def boundaryAfter (rest : List Char) : Bool :=
  match rest with
  | [] => true
  | c :: _ => !isWordChar c

/-- Model of Python `re.split(r'\?|\band\b|\balso\b', text)`: scan left to
right; at each position try the alternatives in order, emitting the buffered
fragment when a separator matches.  `prev` is the character preceding the
current position (for `\b`), `buf` the current fragment reversed. -/
def reSplitAux : Option Char → List Char → List Char → List (List Char)
  | _, [], buf => [buf.reverse]
  | _, '?' :: rest, buf => buf.reverse :: reSplitAux (some '?') rest []
  | prev, 'a' :: 'n' :: 'd' :: rest, buf =>
    if boundaryBefore prev && boundaryAfter rest then
      buf.reverse :: reSplitAux (some 'd') rest []
    else
      reSplitAux (some 'a') ('n' :: 'd' :: rest) ('a' :: buf)
  | prev, 'a' :: 'l' :: 's' :: 'o' :: rest, buf =>
    if boundaryBefore prev && boundaryAfter rest then
      buf.reverse :: reSplitAux (some 'o') rest []
    else
      reSplitAux (some 'a') ('l' :: 's' :: 'o' :: rest) ('a' :: buf)
  | _, c :: rest, buf => reSplitAux (some c) rest (c :: buf)

/-- Model of `FAQProcessor._split_questions`: split on question marks and
word-boundary-matched `and` / `also`; keep stripped fragments containing an
alphabetic character, appending a trailing `?` when absent; fall back to the
whole text when no fragment qualifies. -/
def split_questions (text : String) : List String :=
  let qs := (reSplitAux none text.toList []).filterMap (fun part =>
    let p := pyStripL part
    if !p.isEmpty && p.any Char.isAlpha then
      some (String.mk (if p.getLast? = some '?' then p else p ++ ['?']))
    else none)
  if qs.isEmpty then [text] else qs

/-! ## Data model -/

/-- An embedding vector (floating point numbers modelled as rationals). -/
abbrev Emb := List ℚ

/-- One FAQ entry (`faq_data` row).  `answer = none` models a pandas `NaN`
cell (`pd.isna` holds). -/
structure Row where
  question : String
  answer : Option String
  deriving Repr, DecidableEq

/-- Python `f"{x}"` rendering of an answer cell: `NaN` prints as `nan`. -/
def pyStrOfAnswer : Option String → String
  | none => "nan"
  | some s => s

/-- The text embedded for a row in `build_index`:
`f"{row['question']} {row['answer']}"`. -/
def combined_text (r : Row) : String :=
  r.question ++ " " ++ pyStrOfAnswer r.answer

/-- One element of the list returned by `find_similar_faqs`. -/
structure MatchResult where
  question : String
  matched_faq : String
  answer : String
  distance : ℚ
  deriving Repr, DecidableEq

/-- The mutable fields of a `FAQProcessor` instance, plus the parsed content
of the durable cache file. -/
structure FPState where
  embedding_cache : List (String × Emb)
  last_api_call : ℚ
  index : Option (List Emb)
  faq_data : Option (List Row)
  file_content : Option (List (String × Emb))
  deriving Repr

/-- The external world: the embedding provider (`client.embeddings.create`),
the wall clock (`time.time()`), whether writing the durable cache file
succeeds, and the FAISS search over the stored vectors. -/
structure Env where
  api : List String → Except String (List Emb)
  now : ℚ
  writeOk : Bool
  search : List Emb → Emb → Nat → List (Int × ℚ)

/-- Observable side effects of one operation, in order of occurrence. -/
inductive Effect where
  | sleep (d : ℚ)
  | apiCall (texts : List String)
  | fileWrite (ok : Bool)
  deriving Repr, DecidableEq

/-- Dictionary lookup in `self.embedding_cache` (an association list). -/
def cacheGet (k : String) : List (String × Emb) → Option Emb
  | [] => none
  | (k', v) :: rest => if k' = k then some v else cacheGet k rest

/-- Dictionary store `self.embedding_cache[k] = v` (overwrite or append). -/
def cacheSet (k : String) (v : Emb) : List (String × Emb) → List (String × Emb)
  | [] => [(k, v)]
  | (k', v') :: rest => if k' = k then (k, v) :: rest else (k', v') :: cacheSet k v rest

/-- Model of `FAQProcessor._save_cache` as seen by its caller: it re-raises
after logging when the write fails, so the caller observes an exception
exactly when the write fails. -/
def save_cache (writeOk : Bool) : Except String Unit :=
  if writeOk then .ok () else .error "Cache save failed"

/-- Model of `FAQProcessor.embed_text`.  The input is `none` for a `None` /
non-string argument.  Returns the (never-`error`, since the whole body is
guarded by `try`/`except`) result, the new state, and the effect trace. -/
def embed_text (env : Env) (key : String → String) (s : FPState)
    (text : Option String) : Except String (Option Emb) × FPState × List Effect :=
  match text with
  | none => (.ok none, s, [])
  | some t =>
    if t = "" then (.ok none, s, [])
    else
      let k := key t
      match cacheGet k s.embedding_cache with
      | some v => (.ok (some v), s, [])
      | none =>
        let el := env.now - s.last_api_call
        let effs := if el < 1/20 then [Effect.sleep (1/20 - el)] else []
        match env.api [t] with
        | .error _ => (.ok none, s, effs ++ [Effect.apiCall [t]])
        | .ok data =>
          let s1 := { s with last_api_call := env.now }
          match data.head? with
          | none => (.ok none, s1, effs ++ [Effect.apiCall [t]])
          | some emb =>
            let s2 := { s1 with embedding_cache := cacheSet k emb s1.embedding_cache }
            match save_cache env.writeOk with
            | .ok _ =>
              (.ok (some emb), { s2 with file_content := some s2.embedding_cache },
                effs ++ [Effect.apiCall [t], Effect.fileWrite true])
            | .error _ =>
              (.ok none, s2, effs ++ [Effect.apiCall [t], Effect.fileWrite false])

/-- The filter pass of `embed_batch`: drop `None` / non-string / empty
texts and texts whose cache key is already present. -/
def batch_to_process (key : String → String) (cache : List (String × Emb))
    (texts : List (Option String)) : List String :=
  texts.filterMap (fun t? =>
    match t? with
    | none => none
    | some t =>
      if t = "" then none
      else if (cacheGet (key t) cache).isSome then none
      else some t)

/-- Model of `FAQProcessor.embed_batch`: filter out cached / invalid texts,
issue one provider request for the rest, store every returned vector under
the corresponding key, then flush the cache.  All errors (provider failure,
a response longer than the key list, a failing flush) are swallowed. -/
def embed_batch (env : Env) (key : String → String) (s : FPState)
    (texts : List (Option String)) : FPState × List Effect :=
  let to_process := batch_to_process key s.embedding_cache texts
  let cache_keys := to_process.map key
  if to_process.isEmpty then (s, [])
  else
    let el := env.now - s.last_api_call
    let effs := if el < 1/5 then [Effect.sleep (1/5 - el)] else []
    match env.api to_process with
    | .error _ => (s, effs ++ [Effect.apiCall to_process])
    | .ok data =>
      let newCache := (cache_keys.zip data).foldl
        (fun c p => cacheSet p.1 p.2 c) s.embedding_cache
      let s1 := { s with last_api_call := env.now, embedding_cache := newCache }
      if data.length ≤ cache_keys.length then
        match save_cache env.writeOk with
        | .ok _ =>
          ({ s1 with file_content := some newCache },
            effs ++ [Effect.apiCall to_process, Effect.fileWrite true])
        | .error _ => (s1, effs ++ [Effect.apiCall to_process, Effect.fileWrite false])
      else
        (s1, effs ++ [Effect.apiCall to_process])

/-- Fuel-driven slicing loop; every step consumes at least one element, so
`fuel = l.length` always suffices and the zero-fuel case is unreachable. -/
def chunksFuel (bs : Nat) : Nat → List α → List (List α)
  | _, [] => []
  | 0, _ => []
  | fuel + 1, l => l.take (bs + 1) :: chunksFuel bs fuel (l.drop (bs + 1))

/-- Successive slices of size `bs + 1`, as produced by
`for i in range(0, len(texts), batch_size)` with `batch_size = bs + 1`. -/
def chunksPos (bs : Nat) (l : List α) : List (List α) :=
  chunksFuel bs l.length l

/-- The batch loop of `build_index`: run `embed_batch` on each chunk, then
re-read the chunk's keys from the cache, appending every vector found. -/
def process_batches (env : Env) (key : String → String) :
    FPState → List (List String) → FPState × List Effect × List Emb
  | s, [] => (s, [], [])
  | s, batch :: rest =>
    let r1 := embed_batch env key s (batch.map some)
    let es1 := batch.filterMap (fun t => cacheGet (key t) r1.1.embedding_cache)
    let r2 := process_batches env key r1.1 rest
    (r2.1, r1.2 ++ r2.2.1, es1 ++ r2.2.2)

/-- Model of `FAQProcessor.build_index`: reject a missing or empty corpus,
collect cached embeddings for each row's combined question-and-answer text,
batch-embed the uncached combined texts, and store the vectors as the index.
An uncaught `ValueError` is an `Except.error`. -/
def build_index (env : Env) (key : String → String) (s : FPState)
    (faqs_df : Option (List Row)) (batch_size : Nat) :
    Except String Unit × FPState × List Effect :=
  match faqs_df with
  | none => (.error "No FAQs provided", s, [])
  | some rows =>
    if rows.isEmpty then (.error "No FAQs provided", s, [])
    else
      let s0 := { s with faq_data := some rows }
      let cachedEmbs := rows.filterMap
        (fun r => cacheGet (key (combined_text r)) s0.embedding_cache)
      let texts_to_process := rows.filterMap (fun r =>
        if (cacheGet (key (combined_text r)) s0.embedding_cache).isSome then none
        else some (combined_text r))
      match batch_size with
      | 0 => (.error "range() arg 3 must not be zero", s0, [])
      | bs + 1 =>
        let pb := process_batches env key s0 (chunksPos bs texts_to_process)
        let embeddings := cachedEmbs ++ pb.2.2
        if embeddings.isEmpty then
          (.error "No valid embeddings generated", pb.1, pb.2.1)
        else
          (.ok (), { pb.1 with index := some embeddings }, pb.2.1)

/-- Row access `self.faq_data.iloc[idx]` for a (possibly negative) integer
index: negative indices count from the end; out of range raises. -/
def iloc (l : List Row) (i : Int) : Except String Row :=
  if 0 ≤ i then
    match l.get? i.toNat with
    | some r => .ok r
    | none => .error "IndexError"
  else if (-i).toNat ≤ l.length then
    match l.get? (l.length - (-i).toNat) with
    | some r => .ok r
    | none => .error "IndexError"
  else .error "IndexError"

/-- The inner loop of `find_similar_faqs` over one search result list: skip
indices `≥ len(faq_data)`, skip rows with an empty or `NaN` answer, and keep
neighbors within the distance threshold as `MatchResult`s. -/
def collect_candidates (fd : List Row) (q : String) (threshold : ℚ) :
    List (Int × ℚ) → Except String (List MatchResult)
  | [] => .ok []
  | (idx, d) :: rest =>
    if (fd.length : Int) ≤ idx then collect_candidates fd q threshold rest
    else
      match iloc fd idx with
      | .error e => .error e
      | .ok faq =>
        match faq.answer with
        | none => collect_candidates fd q threshold rest
        | some a =>
          if a = "" then collect_candidates fd q threshold rest
          else if d ≤ threshold then
            match collect_candidates fd q threshold rest with
            | .error e => .error e
            | .ok tl =>
              .ok ({ question := q, matched_faq := faq.question,
                     answer := pyStripS a, distance := d } :: tl)
          else collect_candidates fd q threshold rest

/-- The outer loop of `find_similar_faqs` over the sub-questions: embed each
lower-cased stripped sub-question (skipping it when no vector is available),
search the index, and accumulate the surviving candidates. -/
def fsf_loop (env : Env) (key : String → String) (threshold : ℚ) (k : Nat) :
    FPState → List String → Except String (List MatchResult) × FPState × List Effect
  | s, [] => (.ok [], s, [])
  | s, q :: qs =>
    let r1 := embed_text env key s (some (pyStripS (pyLower q)))
    match r1.1 with
    | .error e => (.error e, r1.2.1, r1.2.2)
    | .ok none =>
      let r2 := fsf_loop env key threshold k r1.2.1 qs
      (r2.1, r2.2.1, r1.2.2 ++ r2.2.2)
    | .ok (some emb) =>
      match r1.2.1.index with
      | none => (.error "AttributeError", r1.2.1, r1.2.2)
      | some ix =>
        match r1.2.1.faq_data with
        | none => (.error "TypeError", r1.2.1, r1.2.2)
        | some fd =>
          match collect_candidates fd q threshold (env.search ix emb k) with
          | .error e => (.error e, r1.2.1, r1.2.2)
          | .ok cands =>
            let r2 := fsf_loop env key threshold k r1.2.1 qs
            match r2.1 with
            | .error e => (.error e, r2.2.1, r1.2.2 ++ r2.2.2)
            | .ok rest => (.ok (cands ++ rest), r2.2.1, r1.2.2 ++ r2.2.2)

/-- Comparison used by `sorted(results, key=lambda x: x['distance'])`. -/
def distLE (a b : MatchResult) : Bool :=
  a.distance ≤ b.distance

/-- The deduplication loop of `find_similar_faqs`: keep the first occurrence
of each sub-question text, tracking the `seen_questions` set. -/
def dedupResults : List MatchResult → List String → List MatchResult
  | [], _ => []
  | r :: rs, seen =>
    if r.question ∈ seen then dedupResults rs seen
    else r :: dedupResults rs (r.question :: seen)

/-- Model of `FAQProcessor.find_similar_faqs`: split the query, gather the
surviving candidates per sub-question, sort ascending by distance (Python's
`sorted` is stable, modelled by `List.mergeSort`), and deduplicate by
sub-question keeping the first survivor. -/
def find_similar_faqs (env : Env) (key : String → String) (s : FPState)
    (query : String) (k : Nat) (threshold : ℚ) :
    Except String (List MatchResult) × FPState × List Effect :=
  let r := fsf_loop env key threshold k s (split_questions query)
  match r.1 with
  | .error e => (.error e, r.2)
  | .ok results => (.ok (dedupResults (results.mergeSort distLE) []), r.2)

/-! ## File-system model for the cache flush (`_save_cache`)

The flush body performs, in order, a whole-file write to `cache_file + '.tmp'`
(`json.dump` into the freshly opened temp file) and then
`os.replace(temp_file, cache_file)`.  The preceding `os.makedirs` call does
not touch either file and is omitted.  A crash may interrupt the sequence at
any point; an interrupted write leaves an arbitrary prefix of the data in the
target file, while `os.replace` is atomic. -/

/-- File operations performed by `_save_cache`. -/
inductive FSOp where
  | write (p : String) (c : String)
  | replace (src dst : String)

/-- Effect of one completed file operation on the file system (path to
content mapping). -/
def applyOp (fs : String → Option String) : FSOp → String → Option String
  | .write p c => fun q => if q = p then some c else fs q
  | .replace src dst => fun q =>
    if q = dst then fs src else if q = src then none else fs q

/-- `strInit c' c` holds when `c'` is an initial segment of `c`. -/
def strInit (c' c : String) : Prop := ∃ t, c' ++ t = c

/-- File systems observable while one operation is in flight: a write may
have transferred any initial segment of the data; a replace is atomic. -/
def midStates (fs : String → Option String) : FSOp → (String → Option String) → Prop
  | .write p c => fun fs' =>
    ∃ c', strInit c' c ∧ fs' = fun q => if q = p then some c' else fs q
  | .replace src dst => fun fs' => fs' = fs ∨ fs' = applyOp fs (.replace src dst)

/-- File systems observable when a run of the operation list is interrupted
at any point (including mid-operation). -/
def reachable (fs : String → Option String) : List FSOp → (String → Option String) → Prop
  | [] => fun fs' => fs' = fs
  | op :: ops => fun fs' =>
    fs' = fs ∨ midStates fs op fs' ∨ reachable (applyOp fs op) ops fs'

/-- The file operations of `_save_cache`: write the full serialized mapping
to `cache_file + '.tmp'`, then atomically rename it over `cache_file`. -/
def save_cache_ops (cache_file : String) (serialized : String) : List FSOp :=
  [FSOp.write (cache_file ++ ".tmp") serialized,
   FSOp.replace (cache_file ++ ".tmp") cache_file]

/-! ## Concrete fixtures used by the witnesses -/

/-- An environment whose provider embeds every text as `[0]` and whose file
writes succeed. -/
def envOk : Env :=
  ⟨fun ts => .ok (ts.map fun _ => [0]), 1, true, fun _ _ _ => []⟩

/-- An environment whose provider embeds every text as `[0]` but whose file
writes fail. -/
def envNoWrite : Env :=
  ⟨fun ts => .ok (ts.map fun _ => [0]), 1, false, fun _ _ _ => []⟩

/-- An environment whose provider fails every request. -/
def envFail : Env :=
  ⟨fun _ => .error "boom", 1, true, fun _ _ _ => []⟩

/-- An environment for retrieval: every text embeds as `[0]`, and every
search returns the single neighbor `(0, 1)`. -/
def envSearch : Env :=
  ⟨fun ts => .ok (ts.map fun _ => [0]), 1, true, fun _ _ _ => [((0 : Int), (1 : ℚ))]⟩

/-- A fresh processor state: empty cache, no index, no corpus. -/
def st0 : FPState := ⟨[], 0, none, none, none⟩

/-- A state whose cache holds the single key `a`. -/
def stA : FPState := ⟨[("a", [1])], 0, none, none, none⟩

/-- A state ready for retrieval over the one-entry corpus `Q / A`. -/
def stIdx : FPState := ⟨[], 0, some [[0]], some [⟨"Q", some "A"⟩], none⟩

/-- A file system holding only the durable cache file with stale content. -/
def fsOld : String → Option String :=
  fun q => if q = "cache.json" then some "old" else none

/-! ## Helper lemmas -/

theorem cacheGet_cacheSet (k k' : String) (v : Emb) :
    ∀ c, cacheGet k (cacheSet k' v c) = if k' = k then some v else cacheGet k c := by
  intro c
  induction c with
  | nil => simp [cacheGet, cacheSet]
  | cons p rest ih =>
    obtain ⟨k'', v''⟩ := p
    by_cases h1 : k'' = k' <;> by_cases h2 : k' = k <;> by_cases h3 : k'' = k <;>
      simp_all [cacheSet, cacheGet]

theorem embed_text_no_raise (env : Env) (key : String → String) (s : FPState)
    (t : Option String) : ((embed_text env key s t).1).isOk = true := by
  rcases t with _ | t
  · rfl
  · by_cases h : t = ""
    · simp [embed_text, h, Except.isOk, Except.toBool]
    · rcases hc : cacheGet (key t) s.embedding_cache with _ | v
      · rcases ha : env.api [t] with e | data
        · simp [embed_text, h, hc, ha, Except.isOk, Except.toBool]
        · rcases hd : data.head? with _ | emb
          · simp [embed_text, h, hc, ha, hd, Except.isOk, Except.toBool]
          · cases hw : env.writeOk <;>
              simp [embed_text, h, hc, ha, hd, save_cache, hw, Except.isOk, Except.toBool]
      · simp [embed_text, h, hc, Except.isOk, Except.toBool]

theorem to_process_uncached (key : String → String) (cache : List (String × Emb))
    (texts : List (Option String)) (t : String)
    (h : t ∈ batch_to_process key cache texts) :
    cacheGet (key t) cache = none ∧ some t ∈ texts := by
  rw [batch_to_process, List.mem_filterMap] at h
  obtain ⟨t?, ht?, hf⟩ := h
  rcases t? with _ | t'
  · cases hf
  · by_cases he : t' = ""
    · simp [he] at hf
    · rcases hs : cacheGet (key t') cache with _ | v
      · simp only [he, if_false, hs, Option.isSome_none, Bool.false_eq_true,
          if_false, Option.some_inj] at hf
        subst hf
        exact ⟨hs, ht?⟩
      · simp [he, hs] at hf

theorem cacheGet_foldl_set (ps : List (String × Emb)) :
    ∀ (c : List (String × Emb)) (k : String) (v : Emb),
      cacheGet k c = some v → (∀ p ∈ ps, p.1 ≠ k) →
      cacheGet k (ps.foldl (fun c p => cacheSet p.1 p.2 c) c) = some v := by
  induction ps with
  | nil => exact fun _ _ _ h _ => h
  | cons p rest ih =>
    intro c k v h hnk
    simp only [List.foldl_cons]
    refine ih _ k v ?_ (fun p' hp' => hnk p' (List.mem_cons_of_mem p hp'))
    rw [cacheGet_cacheSet]
    simp [hnk p (List.mem_cons_self p rest), h]

theorem embed_text_preserves_cache (env : Env) (key : String → String)
    (s : FPState) (t : Option String) (k : String) (v : Emb)
    (h : cacheGet k s.embedding_cache = some v) :
    cacheGet k (embed_text env key s t).2.1.embedding_cache = some v := by
  rcases t with _ | t
  · exact h
  · by_cases he : t = ""
    · simp [embed_text, he, h]
    · rcases hc : cacheGet (key t) s.embedding_cache with _ | v'
      · rcases ha : env.api [t] with e | data
        · simp [embed_text, he, hc, ha, h]
        · rcases hd : data.head? with _ | emb
          · simp [embed_text, he, hc, ha, hd, h]
          · have hk : key t ≠ k := fun hkk => by rw [hkk, h] at hc; cases hc
            cases hw : env.writeOk <;>
              simp [embed_text, he, hc, ha, hd, save_cache, hw,
                cacheGet_cacheSet, hk, h]
      · simp [embed_text, he, hc, h]

theorem embed_text_preserves_meta (env : Env) (key : String → String)
    (s : FPState) (t : Option String) :
    (embed_text env key s t).2.1.index = s.index ∧
    (embed_text env key s t).2.1.faq_data = s.faq_data := by
  rcases t with _ | t
  · exact ⟨rfl, rfl⟩
  · by_cases he : t = ""
    · simp [embed_text, he]
    · rcases hc : cacheGet (key t) s.embedding_cache with _ | v'
      · rcases ha : env.api [t] with e | data
        · simp [embed_text, he, hc, ha]
        · rcases hd : data.head? with _ | emb
          · simp [embed_text, he, hc, ha, hd]
          · cases hw : env.writeOk <;>
              simp [embed_text, he, hc, ha, hd, save_cache, hw]
      · simp [embed_text, he, hc]

theorem embed_batch_preserves_cache (env : Env) (key : String → String)
    (s : FPState) (texts : List (Option String)) (k : String) (v : Emb)
    (h : cacheGet k s.embedding_cache = some v) :
    cacheGet k (embed_batch env key s texts).1.embedding_cache = some v := by
  have hne : ∀ (data : List Emb),
      ∀ p ∈ (List.zip ((batch_to_process key s.embedding_cache texts).map key) data),
        p.1 ≠ k := by
    rintro data ⟨pk, pv⟩ hp hkk
    obtain ⟨t, ht, htk⟩ := List.mem_map.mp (List.of_mem_zip hp).1
    have hkk' : pk = k := hkk
    have hun := (to_process_uncached key s.embedding_cache texts t ht).1
    rw [htk, hkk', h] at hun
    cases hun
  simp only [embed_batch]
  split
  · exact h
  · split
    · exact h
    · next data heq =>
      split
      · split
        · exact cacheGet_foldl_set _ _ _ _ h (hne data)
        · exact cacheGet_foldl_set _ _ _ _ h (hne data)
      · exact cacheGet_foldl_set _ _ _ _ h (hne data)

theorem process_batches_preserves_cache (env : Env) (key : String → String) :
    ∀ (batches : List (List String)) (s : FPState) (k : String) (v : Emb),
      cacheGet k s.embedding_cache = some v →
      cacheGet k (process_batches env key s batches).1.embedding_cache = some v := by
  intro batches
  induction batches with
  | nil => exact fun _ _ _ h => h
  | cons b rest ih =>
    intro s k v h
    simp only [process_batches]
    exact ih _ k v (embed_batch_preserves_cache env key s (b.map some) k v h)

theorem build_index_preserves_cache (env : Env) (key : String → String)
    (s : FPState) (df : Option (List Row)) (bs : Nat) (k : String) (v : Emb)
    (h : cacheGet k s.embedding_cache = some v) :
    cacheGet k (build_index env key s df bs).2.1.embedding_cache = some v := by
  rcases df with _ | rows
  · exact h
  · simp only [build_index]
    split
    · exact h
    · split
      · exact h
      · split
        · exact process_batches_preserves_cache env key _ _ k v h
        · exact process_batches_preserves_cache env key _ _ k v h

theorem fsf_loop_preserves_cache (env : Env) (key : String → String)
    (T : ℚ) (kk : Nat) :
    ∀ (qs : List String) (s : FPState) (k : String) (v : Emb),
      cacheGet k s.embedding_cache = some v →
      cacheGet k (fsf_loop env key T kk s qs).2.1.embedding_cache = some v := by
  intro qs
  induction qs with
  | nil => exact fun _ _ _ h => h
  | cons q rest ih =>
    intro s k v h
    have het := embed_text_preserves_cache env key s
      (some (pyStripS (pyLower q))) k v h
    simp only [fsf_loop]
    split
    · next heq => exact het
    · exact ih _ k v het
    · next emb heq =>
      split
      · exact het
      · split
        · exact het
        · split
          · exact het
          · split
            · exact ih _ k v het
            · exact ih _ k v het

theorem find_similar_faqs_preserves_cache (env : Env) (key : String → String)
    (s : FPState) (query : String) (kk : Nat) (T : ℚ) (k : String) (v : Emb)
    (h : cacheGet k s.embedding_cache = some v) :
    cacheGet k (find_similar_faqs env key s query kk T).2.1.embedding_cache = some v := by
  have hl := fsf_loop_preserves_cache env key T kk (split_questions query) s k v h
  simp only [find_similar_faqs]
  split <;> exact hl

theorem embed_batch_api_texts (env : Env) (key : String → String) (s : FPState)
    (texts : List (Option String)) (ts : List String)
    (h : Effect.apiCall ts ∈ (embed_batch env key s texts).2) :
    ∀ t ∈ ts, some t ∈ texts := by
  intro t ht
  have hmain : ts = batch_to_process key s.embedding_cache texts := by
    simp only [embed_batch] at h
    repeat' split at h
    all_goals simp_all
  exact (to_process_uncached key s.embedding_cache texts t (hmain ▸ ht)).2

theorem cacheGet_foldl_set_inv (ps : List (String × Emb)) :
    ∀ (c : List (String × Emb)) (k : String) (v : Emb),
      cacheGet k (ps.foldl (fun c p => cacheSet p.1 p.2 c) c) = some v →
      cacheGet k c = some v ∨ ∃ p ∈ ps, p.1 = k := by
  induction ps with
  | nil => exact fun _ _ _ h => Or.inl h
  | cons p rest ih =>
    intro c k v h
    simp only [List.foldl_cons] at h
    rcases ih _ k v h with h' | h'
    · rw [cacheGet_cacheSet] at h'
      by_cases hpk : p.1 = k
      · exact Or.inr ⟨p, List.mem_cons_self p rest, hpk⟩
      · rw [if_neg hpk] at h'
        exact Or.inl h'
    · obtain ⟨p', hp', hk⟩ := h'
      exact Or.inr ⟨p', List.mem_cons_of_mem p hp', hk⟩

theorem embed_batch_new_keys (env : Env) (key : String → String) (s : FPState)
    (texts : List (Option String)) (k : String) (v : Emb)
    (h0 : cacheGet k s.embedding_cache = none)
    (h1 : cacheGet k (embed_batch env key s texts).1.embedding_cache = some v) :
    ∃ t, some t ∈ texts ∧ k = key t := by
  simp only [embed_batch] at h1
  have hstep : ∀ (data : List Emb),
      cacheGet k ((List.zip ((batch_to_process key s.embedding_cache texts).map key)
        data).foldl (fun c p => cacheSet p.1 p.2 c) s.embedding_cache) = some v →
      ∃ t, some t ∈ texts ∧ k = key t := by
    intro data hf
    rcases cacheGet_foldl_set_inv _ _ _ _ hf with h' | h'
    · rw [h0] at h'; cases h'
    · obtain ⟨p, hp, hk⟩ := h'
      obtain ⟨t, ht, htk⟩ := List.mem_map.mp (List.of_mem_zip hp).1
      exact ⟨t, (to_process_uncached key s.embedding_cache texts t ht).2,
        by rw [← hk, ← htk]⟩
  repeat' split at h1
  all_goals dsimp only at h1
  all_goals first
    | (rw [h0] at h1; cases h1)
    | exact hstep _ h1

theorem process_batches_api_texts (env : Env) (key : String → String) :
    ∀ (batches : List (List String)) (s : FPState) (ts : List String),
      Effect.apiCall ts ∈ (process_batches env key s batches).2.1 →
      ∃ b ∈ batches, ∀ t ∈ ts, t ∈ b := by
  intro batches
  induction batches with
  | nil => intro s ts h; cases h
  | cons b rest ih =>
    intro s ts h
    simp only [process_batches, List.mem_append] at h
    rcases h with h | h
    · refine ⟨b, List.mem_cons_self b rest, fun t ht => ?_⟩
      have := embed_batch_api_texts env key s (b.map some) ts h t ht
      simpa using this
    · obtain ⟨b', hb', hts⟩ := ih _ ts h
      exact ⟨b', List.mem_cons_of_mem b hb', hts⟩

theorem process_batches_new_keys (env : Env) (key : String → String) :
    ∀ (batches : List (List String)) (s : FPState) (k : String) (v : Emb),
      cacheGet k s.embedding_cache = none →
      cacheGet k (process_batches env key s batches).1.embedding_cache = some v →
      ∃ b ∈ batches, ∃ t ∈ b, k = key t := by
  intro batches
  induction batches with
  | nil =>
    intro s k v h0 h1
    simp only [process_batches] at h1
    rw [h0] at h1; cases h1
  | cons b rest ih =>
    intro s k v h0 h1
    simp only [process_batches] at h1
    rcases hm : cacheGet k (embed_batch env key s (b.map some)).1.embedding_cache with
      _ | v1
    · obtain ⟨b', hb', t, htb, hk⟩ := ih _ k v hm h1
      exact ⟨b', List.mem_cons_of_mem b hb', t, htb, hk⟩
    · obtain ⟨t, ht, hk⟩ := embed_batch_new_keys env key s (b.map some) k v1 h0 hm
      rw [List.mem_map] at ht
      obtain ⟨t', ht', hts⟩ := ht
      cases hts
      exact ⟨b, List.mem_cons_self b rest, t, ht', hk⟩

theorem mem_chunksFuel (bs : Nat) :
    ∀ (fuel : Nat) (l b : List α), b ∈ chunksFuel bs fuel l → ∀ x ∈ b, x ∈ l := by
  intro fuel
  induction fuel with
  | zero =>
    intro l b hb
    rcases l with _ | ⟨a, t⟩ <;> cases hb
  | succ fuel ih =>
    intro l b hb x hx
    rcases l with _ | ⟨a, t⟩
    · cases hb
    · rcases hb with _ | hb
      · exact List.take_subset _ _ hx
      · next hb => exact List.drop_subset _ _ (ih _ b hb x hx)

theorem mem_texts_to_process (key : String → String) (cache : List (String × Emb))
    (rows : List Row) (t : String)
    (h : t ∈ rows.filterMap (fun r =>
      if (cacheGet (key (combined_text r)) cache).isSome then none
      else some (combined_text r))) :
    ∃ r ∈ rows, t = combined_text r := by
  rw [List.mem_filterMap] at h
  obtain ⟨r, hr, hf⟩ := h
  split at hf
  · cases hf
  · exact ⟨r, hr, (Option.some_inj.mp hf).symm⟩

theorem embed_text_fail (env : Env) (key : String → String) (s : FPState)
    (t : String) (hc : cacheGet (key t) s.embedding_cache = none)
    (hapi : ∃ msg, env.api [t] = .error msg) :
    (embed_text env key s (some t)).1 = .ok none ∧
    (embed_text env key s (some t)).2.1 = s := by
  obtain ⟨msg, hm⟩ := hapi
  by_cases he : t = ""
  · simp [embed_text, he]
  · simp [embed_text, he, hc, hm]

theorem fsf_loop_all_fail (env : Env) (key : String → String) (T : ℚ) (k : Nat)
    (s : FPState) (hapi : ∀ ts, ∃ msg, env.api ts = .error msg) :
    ∀ qs : List String,
      (∀ q ∈ qs, cacheGet (key (pyStripS (pyLower q))) s.embedding_cache = none) →
      (fsf_loop env key T k s qs).1 = .ok [] ∧ (fsf_loop env key T k s qs).2.1 = s := by
  intro qs
  induction qs with
  | nil => exact fun _ => ⟨rfl, rfl⟩
  | cons q rest ih =>
    intro hall
    obtain ⟨h1, h2⟩ := embed_text_fail env key s (pyStripS (pyLower q))
      (hall q (List.mem_cons_self q rest)) (hapi _)
    obtain ⟨ih1, ih2⟩ := ih (fun q' hq' => hall q' (List.mem_cons_of_mem q hq'))
    refine ⟨?_, ?_⟩ <;> simp [fsf_loop, h1, h2, ih1, ih2]

theorem iloc_mem (l : List Row) (i : Int) (r : Row) (h : iloc l i = .ok r) :
    r ∈ l := by
  unfold iloc at h
  split at h
  · split at h
    · next hg => cases h; exact List.get?_mem hg
    · cases h
  · split at h
    · split at h
      · next hg => cases h; exact List.get?_mem hg
      · cases h
    · cases h

theorem collect_candidates_sound (fd : List Row) (q : String) (T : ℚ) :
    ∀ (prs : List (Int × ℚ)) (cs : List MatchResult),
      collect_candidates fd q T prs = .ok cs →
      ∀ r ∈ cs, r.distance ≤ T ∧ r.question = q ∧
        ∃ row ∈ fd, r.matched_faq = row.question ∧
          ∃ a, row.answer = some a ∧ a ≠ "" ∧ r.answer = pyStripS a := by
  intro prs
  induction prs with
  | nil =>
    intro cs h r hr
    simp only [collect_candidates] at h
    cases h
    cases hr
  | cons p rest ih =>
    obtain ⟨idx, d⟩ := p
    intro cs h r hr
    simp only [collect_candidates] at h
    split at h
    · exact ih cs h r hr
    · split at h
      · cases h
      · next faq hiloc =>
        split at h
        · exact ih cs h r hr
        · next a ha =>
          split at h
          · exact ih cs h r hr
          · next hane =>
            split at h
            · next hdT =>
              split at h
              · cases h
              · next tl htl =>
                cases h
                rcases List.mem_cons.mp hr with rfl | hr'
                · exact ⟨hdT, rfl, faq, iloc_mem fd idx faq hiloc, rfl,
                    a, ha, hane, rfl⟩
                · exact ih tl htl r hr'
            · exact ih cs h r hr

theorem fsf_loop_sound (env : Env) (key : String → String) (T : ℚ) (kk : Nat) :
    ∀ (qs : List String) (s : FPState) (cs : List MatchResult),
      (fsf_loop env key T kk s qs).1 = .ok cs →
      ∀ r ∈ cs, r.distance ≤ T ∧ ∃ rows, s.faq_data = some rows ∧
        ∃ row ∈ rows, r.matched_faq = row.question ∧
          ∃ a, row.answer = some a ∧ a ≠ "" ∧ r.answer = pyStripS a := by
  intro qs
  induction qs with
  | nil =>
    intro s cs h r hr
    simp only [fsf_loop] at h
    cases h
    cases hr
  | cons q rest ih =>
    intro s cs h r hr
    have hmeta := (embed_text_preserves_meta env key s (some (pyStripS (pyLower q)))).2
    simp only [fsf_loop] at h
    split at h
    · dsimp only at h; cases h
    · dsimp only at h
      have props := ih _ cs h r hr
      refine ⟨props.1, ?_⟩
      obtain ⟨rows, hrows, hrest⟩ := props.2
      rw [hmeta] at hrows
      exact ⟨rows, hrows, hrest⟩
    · next emb heq =>
      split at h
      · dsimp only at h; cases h
      · next ix heqix =>
        split at h
        · dsimp only at h; cases h
        · next fd heqfd =>
          split at h
          · dsimp only at h; cases h
          · next cands heqc =>
            split at h
            · dsimp only at h; cases h
            · next restRes heqr =>
              dsimp only at h
              cases h
              rw [hmeta] at heqfd
              rcases List.mem_append.mp hr with hr' | hr'
              · have props := collect_candidates_sound fd q T _ cands heqc r hr'
                exact ⟨props.1, fd, heqfd, props.2.2⟩
              · have props := ih _ restRes heqr r hr'
                refine ⟨props.1, ?_⟩
                obtain ⟨rows, hrows, hrest⟩ := props.2
                rw [hmeta] at hrows
                exact ⟨rows, hrows, hrest⟩

theorem dedupResults_sublist :
    ∀ (l : List MatchResult) (seen : List String), List.Sublist (dedupResults l seen) l := by
  intro l
  induction l with
  | nil => intro seen; simp [dedupResults]
  | cons r rs ih =>
    intro seen
    rw [dedupResults]
    split
    · exact (ih seen).cons r
    · exact (ih _).cons₂ r

theorem dedupResults_nodup_keys :
    ∀ (l : List MatchResult) (seen : List String),
      ((dedupResults l seen).map MatchResult.question).Nodup ∧
      ∀ q ∈ (dedupResults l seen).map MatchResult.question, q ∉ seen := by
  intro l
  induction l with
  | nil => intro seen; exact ⟨List.nodup_nil, by simp [dedupResults]⟩
  | cons r rs ih =>
    intro seen
    rw [dedupResults]
    split
    · exact ih seen
    · next hseen =>
      obtain ⟨ihn, ihs⟩ := ih (r.question :: seen)
      constructor
      · simp only [List.map_cons, List.nodup_cons]
        exact ⟨fun hmem => (ihs _ hmem) (List.mem_cons_self _ _), ihn⟩
      · intro q hq
        simp only [List.map_cons, List.mem_cons] at hq
        rcases hq with rfl | hq
        · exact hseen
        · exact fun hqs => (ihs q hq) (List.mem_cons_of_mem _ hqs)

theorem dedupResults_min :
    ∀ (l : List MatchResult) (seen : List String),
      l.Pairwise (fun a b => a.distance ≤ b.distance) →
      ∀ c ∈ l,
        (∃ r ∈ dedupResults l seen, r.question = c.question ∧
          r.distance ≤ c.distance) ∨ c.question ∈ seen := by
  intro l
  induction l with
  | nil => intro seen _ c hc; cases hc
  | cons x rs ih =>
    intro seen hp c hc
    obtain ⟨hx, hp'⟩ := List.pairwise_cons.mp hp
    rw [dedupResults]
    split
    · next hseen =>
      rcases List.mem_cons.mp hc with rfl | hc'
      · exact Or.inr hseen
      · exact ih seen hp' c hc'
    · next hseen =>
      rcases List.mem_cons.mp hc with rfl | hc'
      · exact Or.inl ⟨c, List.mem_cons_self _ _, rfl, le_refl _⟩
      · rcases ih (x.question :: seen) hp' c hc' with ⟨r, hr, hq, hd⟩ | hmem
        · exact Or.inl ⟨r, List.mem_cons_of_mem x hr, hq, hd⟩
        · rcases List.mem_cons.mp hmem with hq | hq
          · exact Or.inl ⟨x, List.mem_cons_self _ _, hq.symm, hx c hc'⟩
          · exact Or.inr hq

theorem dedupResults_first :
    ∀ (l : List MatchResult) (seen : List String) (r : MatchResult),
      r ∈ dedupResults l seen →
      r.question ∉ seen ∧ ∃ l₁ l₂, l = l₁ ++ r :: l₂ ∧
        ∀ c ∈ l₁, c.question ≠ r.question := by
  intro l
  induction l with
  | nil => intro seen r h; cases h
  | cons x rs ih =>
    intro seen r h
    rw [dedupResults] at h
    split at h
    · next hseen =>
      obtain ⟨hns, l₁, l₂, heq, hne⟩ := ih seen r h
      refine ⟨hns, x :: l₁, l₂, by rw [heq]; rfl, ?_⟩
      intro c hc
      rcases List.mem_cons.mp hc with rfl | hc'
      · exact fun hcq => hns (hcq ▸ hseen)
      · exact hne c hc'
    · next hseen =>
      rcases List.mem_cons.mp h with rfl | h'
      · exact ⟨hseen, [], rs, rfl, by simp⟩
      · obtain ⟨hns, l₁, l₂, heq, hne⟩ := ih _ r h'
        have hxq : x.question ≠ r.question := by
          intro hh
          exact hns (hh ▸ List.mem_cons_self x.question seen)
        refine ⟨fun hrs => hns (List.mem_cons_of_mem _ hrs),
          x :: l₁, l₂, by rw [heq]; rfl, ?_⟩
        intro c hc
        rcases List.mem_cons.mp hc with rfl | hc'
        · exact hxq
        · exact hne c hc'

theorem distLE_trans (a b c : MatchResult) (hab : distLE a b) (hbc : distLE b c) :
    distLE a c := by
  simp only [distLE, decide_eq_true_eq] at *
  exact le_trans hab hbc

theorem distLE_total (a b : MatchResult) : distLE a b || distLE b a := by
  simp only [distLE, Bool.or_eq_true, decide_eq_true_eq]
  exact le_total _ _

theorem filter_mergeSort_eq (p : MatchResult → Bool) (l : List MatchResult)
    (hp : ∀ x y, p x = true → p y = true → distLE x y = true) :
    (List.mergeSort l distLE).filter p = l.filter p := by
  have hA : (l.filter p).Pairwise (fun a b => distLE a b = true) := by
    refine List.pairwise_of_forall_mem_list ?_
    intro a ha b hb
    rw [List.mem_filter] at ha hb
    exact hp a b ha.2 hb.2
  have hsub : List.Sublist (l.filter p) (List.mergeSort l distLE) :=
    List.sublist_mergeSort distLE_trans distLE_total hA (List.filter_sublist l)
  have hsub2 : List.Sublist (l.filter p) ((List.mergeSort l distLE).filter p) := by
    have h1 := hsub.filter p
    rwa [List.filter_filter, show (fun a => p a && p a) = p from funext
      (fun a => Bool.and_self (p a))] at h1
  have hperm : ((List.mergeSort l distLE).filter p).length = (l.filter p).length :=
    ((List.mergeSort_perm l distLE).filter p).length_eq
  exact (hsub2.eq_of_length hperm.symm).symm

theorem head_filter_first (p : MatchResult → Bool) :
    ∀ (l : List MatchResult) (r : MatchResult),
      (l.filter p).head? = some r →
      ∃ i, l.get? i = some r ∧
        ∀ j, j < i → ∀ c, l.get? j = some c → p c = false := by
  intro l
  induction l with
  | nil => intro r h; cases h
  | cons x rs ih =>
    intro r h
    rcases hp : p x with _ | _
    · rw [List.filter_cons, if_neg (by simp [hp])] at h
      obtain ⟨i, hi, hj⟩ := ih r h
      refine ⟨i + 1, by simpa using hi, ?_⟩
      intro j hj1 c hc
      cases j with
      | zero =>
        rw [List.get?_cons_zero, Option.some_inj] at hc
        rw [← hc]; exact hp
      | succ j => exact hj j (by omega) c (by simpa using hc)
    · rw [List.filter_cons, if_pos (by simp [hp]), List.head?_cons,
        Option.some_inj] at h
      exact ⟨0, by rw [List.get?_cons_zero, h], fun j hj c hc => absurd hj (by omega)⟩

/-! ## Claims -/

/-- C1: every Match Result returned by `find_similar_faqs` has distance at
most the threshold and stems from a FAQ row whose answer is present and
non-empty; neighbors with an empty or absent answer, or with distance above
the threshold, are discarded. -/
theorem c1_threshold_and_answer (env : Env) (key : String → String)
    (s : FPState) (query : String) (kk : Nat) (T : ℚ) (rs : List MatchResult)
    (h : (find_similar_faqs env key s query kk T).1 = Except.ok rs) :
    ∀ r ∈ rs, r.distance ≤ T ∧ ∃ rows, s.faq_data = some rows ∧
      ∃ row ∈ rows, r.matched_faq = row.question ∧
        ∃ a, row.answer = some a ∧ a ≠ "" ∧ r.answer = pyStripS a := by
  intro r hr
  simp only [find_similar_faqs] at h
  split at h
  · dsimp only at h; cases h
  · next cs heq =>
    dsimp only at h
    cases h
    have hmem : r ∈ List.mergeSort cs distLE :=
      (dedupResults_sublist _ _).subset hr
    exact fsf_loop_sound env key T kk (split_questions query) s cs heq r
      (List.mem_mergeSort.mp hmem)

/-- Witness for C1: a concrete retrieval over the one-row corpus `Q / A`
returns the single match within threshold, grounded in that row. -/
theorem c1_threshold_and_answer_witness :
    (⟨"hi?", "Q", "A", 1⟩ : MatchResult).distance ≤ 2 ∧
    ∃ rows, stIdx.faq_data = some rows ∧
      ∃ row ∈ rows,
        (⟨"hi?", "Q", "A", 1⟩ : MatchResult).matched_faq = row.question ∧
        ∃ a, row.answer = some a ∧ a ≠ "" ∧
          (⟨"hi?", "Q", "A", 1⟩ : MatchResult).answer = pyStripS a :=
  c1_threshold_and_answer envSearch (fun t => t) stIdx "hi" 3 2
    [⟨"hi?", "Q", "A", 1⟩]
    (by
      have hl : (fsf_loop envSearch (fun t => t) 2 3 stIdx
          (split_questions "hi")).1 = .ok [⟨"hi?", "Q", "A", 1⟩] := rfl
      simp only [find_similar_faqs]
      split
      · next heq => rw [hl] at heq; cases heq
      · next cs heq =>
        rw [hl] at heq
        cases heq
        simp [List.mergeSort_singleton, dedupResults])
    ⟨"hi?", "Q", "A", 1⟩ (List.mem_cons_self _ _)

/-- C2: the returned sequence contains at most one Match Result per distinct
sub-question; each returned result is a surviving candidate of minimal
distance for its sub-question — specifically the first candidate attaining
that minimum (earlier same-sub-question candidates are strictly farther) —
and the sequence is sorted ascending by distance. -/
theorem c2_dedup_and_order (env : Env) (key : String → String) (s : FPState)
    (query : String) (kk : Nat) (T : ℚ) (cs : List MatchResult)
    (h : (fsf_loop env key T kk s (split_questions query)).1 = Except.ok cs) :
    ∃ rs, (find_similar_faqs env key s query kk T).1 = Except.ok rs ∧
      (rs.map MatchResult.question).Nodup ∧
      rs.Pairwise (fun a b => a.distance ≤ b.distance) ∧
      (∀ r ∈ rs, r ∈ cs) ∧
      (∀ c ∈ cs, ∃ r ∈ rs, r.question = c.question ∧ r.distance ≤ c.distance) ∧
      (∀ r ∈ rs, ∃ i, cs.get? i = some r ∧
        ∀ j, j < i → ∀ c, cs.get? j = some c →
          c.question = r.question → r.distance < c.distance) := by
  have hsorted : (List.mergeSort cs distLE).Pairwise
      (fun a b => a.distance ≤ b.distance) := by
    have hs := List.sorted_mergeSort distLE_trans distLE_total cs
    exact hs.imp (by intro a b hab; simpa [distLE] using hab)
  refine ⟨dedupResults (List.mergeSort cs distLE) [], ?_, ?_, ?_, ?_, ?_, ?_⟩
  · simp only [find_similar_faqs]
    split
    · next heq => rw [h] at heq; cases heq
    · next cs' heq =>
      rw [h] at heq
      cases heq
      rfl
  · exact (dedupResults_nodup_keys _ _).1
  · exact List.Pairwise.sublist (dedupResults_sublist _ _) hsorted
  · intro r hr
    exact List.mem_mergeSort.mp ((dedupResults_sublist _ _).subset hr)
  · intro c hc
    rcases dedupResults_min _ [] hsorted c (List.mem_mergeSort.mpr hc) with
      ⟨r, hr, hq, hd⟩ | hmem
    · exact ⟨r, hr, hq, hd⟩
    · cases hmem
  · intro r hr
    obtain ⟨-, l₁, l₂, heq, hne⟩ := dedupResults_first _ [] r hr
    set p : MatchResult → Bool := fun c =>
      decide (c.question = r.question) && decide (c.distance = r.distance)
      with hp_def
    have hp : ∀ x y, p x = true → p y = true → distLE x y = true := by
      intro x y hx hy
      simp only [hp_def, Bool.and_eq_true, decide_eq_true_eq] at hx hy
      simp only [distLE, decide_eq_true_eq, hx.2, hy.2]
      exact le_refl _
    have hfeq := filter_mergeSort_eq p cs hp
    have hpr : p r = true := by simp [hp_def]
    have hl1 : l₁.filter p = [] := by
      rw [List.filter_eq_nil_iff]
      intro a ha hpa
      simp only [hp_def, Bool.and_eq_true, decide_eq_true_eq] at hpa
      exact hne a ha hpa.1
    have hhead : ((List.mergeSort cs distLE).filter p).head? = some r := by
      rw [heq, List.filter_append, hl1, List.nil_append, List.filter_cons,
        if_pos (by simp [hpr])]
      rfl
    rw [hfeq] at hhead
    obtain ⟨i, hi, hj⟩ := head_filter_first p cs r hhead
    refine ⟨i, hi, ?_⟩
    intro j hji c hc hcq
    have hcf := hj j hji c hc
    have hdne : c.distance ≠ r.distance := by
      intro hdd
      rw [hp_def] at hcf
      simp [hcq, hdd] at hcf
    rcases dedupResults_min _ [] hsorted c
        (List.mem_mergeSort.mpr (List.get?_mem hc)) with ⟨r', hr', hq', hd'⟩ | hmem
    · have hrr : r' = r :=
        List.inj_on_of_nodup_map
          (dedupResults_nodup_keys (List.mergeSort cs distLE) []).1
          hr' hr (by rw [hq', hcq])
      rw [hrr] at hd'
      exact lt_of_le_of_ne hd' (Ne.symm hdne)
    · cases hmem

/-- Witness for C2 on the concrete one-row retrieval. -/
theorem c2_dedup_and_order_witness :
    ∃ rs, (find_similar_faqs envSearch (fun t => t) stIdx "hi" 3 2).1 =
        Except.ok rs ∧
      (rs.map MatchResult.question).Nodup ∧
      rs.Pairwise (fun a b => a.distance ≤ b.distance) ∧
      (∀ r ∈ rs, r ∈ [(⟨"hi?", "Q", "A", 1⟩ : MatchResult)]) ∧
      (∀ c ∈ [(⟨"hi?", "Q", "A", 1⟩ : MatchResult)],
        ∃ r ∈ rs, r.question = c.question ∧ r.distance ≤ c.distance) ∧
      (∀ r ∈ rs, ∃ i, [(⟨"hi?", "Q", "A", 1⟩ : MatchResult)].get? i = some r ∧
        ∀ j, j < i → ∀ c, [(⟨"hi?", "Q", "A", 1⟩ : MatchResult)].get? j = some c →
          c.question = r.question → r.distance < c.distance) :=
  c2_dedup_and_order envSearch (fun t => t) stIdx "hi" 3 2
    [⟨"hi?", "Q", "A", 1⟩] rfl

/-- C5: `build_index` rejects a `None` or empty corpus with a `ValueError`
(`"No FAQs provided"`), leaving the processor state untouched, so no usable
index is ever produced from an empty corpus. -/
theorem c5_empty_corpus_rejected (env : Env) (key : String → String)
    (s : FPState) (bs : Nat) :
    build_index env key s none bs = (.error "No FAQs provided", s, []) ∧
    build_index env key s (some []) bs = (.error "No FAQs provided", s, []) := by
  constructor <;> simp [build_index]

/-- C10: when the cache key of a non-empty text is already present,
`embed_text` returns the cached vector and is otherwise pure: the state
(including `last_api_call` and the durable file) is unchanged and no sleep,
provider request or file write happens. -/
theorem c10_cache_hit_pure (env : Env) (key : String → String) (s : FPState)
    (t : String) (v : Emb) (ht : t ≠ "")
    (hv : cacheGet (key t) s.embedding_cache = some v) :
    embed_text env key s (some t) = (.ok (some v), s, []) := by
  simp [embed_text, ht, hv]

/-- Witness for C10 at a concrete cached key. -/
theorem c10_cache_hit_pure_witness :
    embed_text envOk (fun t => t) stA (some "a") = (.ok (some [1]), stA, []) :=
  c10_cache_hit_pure envOk (fun t => t) stA "a" [1] (by decide) (by decide)

/-- C6 counterexample: with a failing durable write (and a working provider),
`embed_text` on an uncached text performs the failing flush yet returns
normally (`None`), so the write failure is not surfaced to `embed_text`'s
caller as an exception. -/
theorem c6_counterexample :
    (embed_text envNoWrite (fun t => t) st0 (some "hi")).1 = Except.ok none ∧
    Effect.fileWrite false ∈ (embed_text envNoWrite (fun t => t) st0 (some "hi")).2.2 := by
  refine ⟨rfl, ?_⟩
  simp [embed_text, cacheGet, save_cache, envNoWrite, st0]

/-- C6 amended: a failing cache write is surfaced as an exception by
`_save_cache` itself (it re-raises after logging), but `embed_text` (like
`embed_batch`) catches it together with provider errors and returns normally
instead of propagating it. -/
theorem c6_save_raises_but_clients_swallow (env : Env) (key : String → String)
    (s : FPState) (t : Option String) (h : env.writeOk = false) :
    save_cache env.writeOk = .error "Cache save failed" ∧
    ((embed_text env key s t).1).isOk = true :=
  ⟨by simp [save_cache, h], embed_text_no_raise env key s t⟩

/-- Witness for the amended C6 at a concrete failing-write environment. -/
theorem c6_save_raises_but_clients_swallow_witness :
    save_cache envNoWrite.writeOk = .error "Cache save failed" ∧
    ((embed_text envNoWrite (fun t => t) st0 (some "hi")).1).isOk = true :=
  c6_save_raises_but_clients_swallow envNoWrite (fun t => t) st0 (some "hi") rfl

/-- C7: interrupting the flush sequence of `_save_cache` (write the full
serialized mapping to the temp file, then atomically rename) at any point,
including mid-operation, leaves the durable cache file either with its
previous content or with the complete new serialization — never truncated or
partially written. -/
theorem c7_flush_atomic (fs : String → Option String) (path content : String)
    (fs' : String → Option String)
    (h : reachable fs (save_cache_ops path content) fs') :
    fs' path = fs path ∨ fs' path = some content := by
  have hne : path ≠ path ++ ".tmp" := by
    intro he
    have hl := congrArg String.length he
    rw [String.length_append] at hl
    have : (".tmp" : String).length = 4 := by decide
    omega
  rcases h with h | h | h
  · left; rw [h]
  · obtain ⟨c', _, rfl⟩ := h
    left; simp [if_neg hne]
  · rcases h with h | h | h
    · left; rw [h]; simp [applyOp, if_neg hne]
    · rcases h with h | h
      · left; rw [h]; simp [applyOp, if_neg hne]
      · right; rw [h]; simp [applyOp]
    · right
      have h' : fs' = applyOp (applyOp fs (FSOp.write (path ++ ".tmp") content))
          (FSOp.replace (path ++ ".tmp") path) := h
      rw [h']; simp [applyOp]

/-- Witness for C7: the pre-flush state itself is reachable (crash before
anything happened) and shows the old content intact. -/
theorem c7_flush_atomic_witness :
    fsOld "cache.json" = fsOld "cache.json" ∨ fsOld "cache.json" = some "new" :=
  c7_flush_atomic fsOld "cache.json" "new" fsOld (Or.inl rfl)

/-- C3: `_split_questions` never returns an empty sequence; every returned
sub-question ends in `?` unless the fallback returned the original text as a
singleton; and the two-question example splits into exactly the two expected
sub-questions, each ending in `?` (the capitalised `Also` is not a split word
— the split here comes from the question marks). -/
theorem c3_splitter (text : String) :
    split_questions text ≠ [] ∧
    (∀ q ∈ split_questions text,
      q.toList.getLast? = some '?' ∨ split_questions text = [text]) ∧
    split_questions "How do I update my number? Also what's the care email?" =
      ["How do I update my number?", "Also what's the care email?"] := by
  refine ⟨?_, ?_, by decide⟩
  · simp only [split_questions]
    split <;> simp_all [List.isEmpty_iff]
  · intro q hq
    simp only [split_questions] at hq
    split at hq
    · right
      simp only [split_questions]
      split <;> simp_all
    · left
      rw [List.mem_filterMap] at hq
      obtain ⟨part, _, hf⟩ := hq
      split at hf
      · rw [Option.some_inj] at hf
        subst hf
        show (String.mk _).data.getLast? = some '?'
        split
        · assumption
        · simp
      · exact absurd hf (by simp)

/-- Witness for C3 on the example query: the split is non-empty and its
first element ends in a question mark. -/
theorem c3_splitter_witness :
    split_questions "How do I update my number? Also what's the care email?" ≠ [] ∧
    (("How do I update my number?" : String).toList.getLast? = some '?' ∨
      split_questions "How do I update my number? Also what's the care email?" =
        ["How do I update my number? Also what's the care email?"]) :=
  ⟨(c3_splitter "How do I update my number? Also what's the care email?").1,
   (c3_splitter "How do I update my number? Also what's the care email?").2.1
     "How do I update my number?" (by decide)⟩

/-- C4: if the embedding provider fails on every request and no sub-question
of the query is cached, `find_similar_faqs` returns the empty list normally
(no exception escapes): the failed sub-questions are skipped. -/
theorem c4_provider_failure_yields_empty (env : Env) (key : String → String)
    (s : FPState) (query : String) (k : Nat) (T : ℚ)
    (hapi : ∀ ts, ∃ msg, env.api ts = Except.error msg)
    (hcache : ∀ q ∈ split_questions query,
      cacheGet (key (pyStripS (pyLower q))) s.embedding_cache = none) :
    (find_similar_faqs env key s query k T).1 = Except.ok [] := by
  obtain ⟨h1, _⟩ := fsf_loop_all_fail env key T k s hapi (split_questions query) hcache
  simp [find_similar_faqs, h1, dedupResults]

/-- Witness for C4: a concrete always-failing provider and an empty cache. -/
theorem c4_provider_failure_yields_empty_witness :
    (find_similar_faqs envFail (fun t => t) st0 "hi" 5 (3/2)).1 = Except.ok [] :=
  c4_provider_failure_yields_empty envFail (fun t => t) st0 "hi" 5 (3/2)
    (fun _ => ⟨"boom", rfl⟩) (fun _ _ => rfl)

/-- C9: within a session the in-memory embedding cache grows monotonically:
under each of the four operations, every key already present keeps its exact
vector (so operations only add keys, never remove or overwrite one). -/
theorem c9_cache_monotone (env : Env) (key : String → String) (s : FPState) :
    (∀ t k v, cacheGet k s.embedding_cache = some v →
      cacheGet k (embed_text env key s t).2.1.embedding_cache = some v) ∧
    (∀ texts k v, cacheGet k s.embedding_cache = some v →
      cacheGet k (embed_batch env key s texts).1.embedding_cache = some v) ∧
    (∀ df bs k v, cacheGet k s.embedding_cache = some v →
      cacheGet k (build_index env key s df bs).2.1.embedding_cache = some v) ∧
    (∀ query kk T k v, cacheGet k s.embedding_cache = some v →
      cacheGet k (find_similar_faqs env key s query kk T).2.1.embedding_cache = some v) :=
  ⟨fun t k v h => embed_text_preserves_cache env key s t k v h,
   fun texts k v h => embed_batch_preserves_cache env key s texts k v h,
   fun df bs k v h => build_index_preserves_cache env key s df bs k v h,
   fun query kk T k v h => find_similar_faqs_preserves_cache env key s query kk T k v h⟩

/-- C8: every text that `build_index` sends to the embedding provider, and
every cache key it adds, derives from the combination
`question ++ " " ++ answer` of some corpus row — never from the question
alone. -/
theorem c8_embeds_combined_text (env : Env) (key : String → String)
    (s : FPState) (rows : List Row) (bs : Nat) :
    (∀ ts, Effect.apiCall ts ∈ (build_index env key s (some rows) bs).2.2 →
      ∀ t ∈ ts, ∃ r ∈ rows, t = combined_text r) ∧
    (∀ k v, cacheGet k s.embedding_cache = none →
      cacheGet k (build_index env key s (some rows) bs).2.1.embedding_cache = some v →
      ∃ r ∈ rows, k = key (combined_text r)) := by
  constructor
  · intro ts hts t ht
    simp only [build_index] at hts
    repeat' split at hts
    · cases hts
    · cases hts
    all_goals
      obtain ⟨b, hb, hmem⟩ := process_batches_api_texts env key _ _ ts hts
      simp only [chunksPos] at hb
      exact mem_texts_to_process key _ rows t
        (mem_chunksFuel _ _ _ b hb t (hmem t ht))
  · intro k v h0 h1
    simp only [build_index] at h1
    repeat' split at h1
    all_goals dsimp only at h1
    · rw [h0] at h1; cases h1
    · rw [h0] at h1; cases h1
    all_goals
      obtain ⟨b, hb, t, htb, hk⟩ := process_batches_new_keys env key _
        { s with faq_data := some rows } k v h0 h1
      simp only [chunksPos] at hb
      obtain ⟨r, hr, hrt⟩ := mem_texts_to_process key _ rows t
        (mem_chunksFuel _ _ _ b hb t htb)
      exact ⟨r, hr, by rw [hk, hrt]⟩

/-- Witness for C8: over the one-row corpus `Q / A` with an empty cache, the
newly added cache key is the key of `"Q A"` — the combined text. -/
theorem c8_embeds_combined_text_witness :
    ∃ r ∈ [(⟨"Q", some "A"⟩ : Row)], "Q A" = (fun t => t) (combined_text r) :=
  (c8_embeds_combined_text envOk (fun t => t) st0 [⟨"Q", some "A"⟩] 50).2
    "Q A" [0] rfl rfl

/-- Witness for C9: the key `a` keeps its vector across each operation run
from a concrete state containing it. -/
theorem c9_cache_monotone_witness :
    cacheGet "a" (embed_text envOk (fun t => t) stA (some "b")).2.1.embedding_cache
      = some [1] ∧
    cacheGet "a" (embed_batch envOk (fun t => t) stA [some "b"]).1.embedding_cache
      = some [1] ∧
    cacheGet "a" (build_index envOk (fun t => t) stA
        (some [⟨"Q", some "A"⟩]) 50).2.1.embedding_cache = some [1] ∧
    cacheGet "a" (find_similar_faqs envOk (fun t => t) stA "hi" 5
        (3/2)).2.1.embedding_cache = some [1] :=
  ⟨(c9_cache_monotone envOk (fun t => t) stA).1 (some "b") "a" [1] (by decide),
   (c9_cache_monotone envOk (fun t => t) stA).2.1 [some "b"] "a" [1] (by decide),
   (c9_cache_monotone envOk (fun t => t) stA).2.2.1 (some [⟨"Q", some "A"⟩]) 50
     "a" [1] (by decide),
   (c9_cache_monotone envOk (fun t => t) stA).2.2.2 "hi" 5 (3/2) "a" [1] (by decide)⟩

end ZaggleFAQ
